import Mathlib

/-!
Shallow embedding of the pretty_size memory-layout engine (src/main.rs).

Machine integers are modelled as Nat. Where overflow matters in the source
(the u32 fold building the miscellaneous size, the u64 to u32 cast of a
grouped region length, and the u64 capacity addition), the reductions
mod 2 ^ 32 and mod 2 ^ 64 are written explicitly, matching the wrapping
behaviour of the release build. File access and JSON decoding are external
collaborators of the program; they are abstracted as function parameters
(a filesystem is a map from path to optional contents, a decoder is a map
from contents to an optional decoded value).
-/

namespace PrettySize

/-- Mirror of struct RegionWithSections (src/main.rs lines 17-22):
a memory region name, its declared length, and its ordered section list. -/
structure RegionWithSections where
  name : String
  length : Nat
  sections : List (String × Nat)
deriving DecidableEq

/-- A memory region as produced by the linker-script parser: name and length.
Only these two fields of the parsed region are read by the source. -/
structure MemoryRegion where
  name : String
  length : Nat
deriving DecidableEq

/-- Mirror of enum SectionEdit (src/main.rs lines 24-35). -/
inductive SectionEdit where
  | GroupRegions (region_to_insert_as_section : String) (output_region : String)
      (output_section_name : String)
  | Ignore (region_name : String) (section_name_to_ignore : String)
deriving DecidableEq

/-- Model of HashMap get on the section-size map built by get_sections_sizes
(src/main.rs lines 220-250). The map is represented as an association list
in the order the size-program output lines were read (the discovery order of
the samples); lookup is by name. Names are unique in the real map, so the
first match is the only match. -/
def lookupSize (sizes : List (String × Nat)) (n : String) : Option Nat :=
  (sizes.find? (fun p => p.1 == n)).map (fun p => p.2)

/-- Mirror of the rule extraction, src/main.rs lines 407-425: from the parsed
output-section commands (name, optional vma region, optional lma region),
keep those whose vma region is present and unwrap it. -/
def extractPlacementRules (cmds : List (String × Option String × Option String)) :
    List (String × String × Option String) :=
  (cmds.filter (fun c => c.2.1.isSome)).map (fun c => (c.1, c.2.1.getD "", c.2.2))

/-- Mirror of the per-region correlation, src/main.rs lines 431-444: keep the
rules whose region name, or whose lma region name with None read as the empty
string (lma_reg_name.map_or), equals the region name, then look every kept
rule name up in the size map, dropping missing names and zero sizes. -/
def correlate (rules : List (String × String × Option String))
    (sizes : List (String × Nat)) (reg : MemoryRegion) : List (String × Nat) :=
  (rules.filter (fun r => r.2.1 == reg.name || (r.2.2.getD "") == reg.name)).filterMap
    (fun r =>
      match lookupSize sizes r.1 with
      | some 0 => none
      | some s => some (r.1, s)
      | none => none)

/-- Mirror of fn drain_filter (src/main.rs lines 362-376): scan the vector
left to right, moving every element satisfying the predicate into the
returned vector (first component) and keeping the rest in place (second
component); both keep their relative order, as the index-based loop does. -/
def drain_filter {α : Type} (p : α → Bool) : List α → List α × List α
  | [] => ([], [])
  | x :: xs =>
    let r := drain_filter p xs
    if p x then (x :: r.1, r.2) else (r.1, x :: r.2)

/-- The insignificance predicate of src/main.rs lines 446-449:
100.0 * (size as f64) / (length as f64) < 2.0, computed in IEEE f64.
This integer comparison is extensionally equal to the float one on the
whole domain of the program: size is a u32, so 100 * size < 2 ^ 39 is
exactly representable; for 0 < length < 2 ^ 53 the cast of length is exact
and the correctly rounded division compares against the power of two 2.0
exactly as the rational 100 * size / length does (the quotient is at least
1 / length > 2 ^ (-53) away from 2.0 whenever it differs from it); for
length >= 2 ^ 53 both sides are true because 100 * size < 2 ^ 39 is far
below 2 * length; for length = 0 the float quotient is infinite or NaN and
the comparison is false, as is 0 < length here. -/
def sectionBelowThreshold (length : Nat) (s : String × Nat) : Bool :=
  decide (0 < length ∧ 50 * s.2 < length)

/-- Mirror of the aggregation step, src/main.rs lines 446-457: drain the
sections below the threshold; if any were drained, append one
"miscellaneous" record whose size is their sum, accumulated in wrapping
u32 arithmetic (fold over acc + size). -/
def aggregateInsignificant (length : Nat) (sections : List (String × Nat)) :
    List (String × Nat) :=
  if (drain_filter (sectionBelowThreshold length) sections).1.isEmpty then
    (drain_filter (sectionBelowThreshold length) sections).2
  else
    (drain_filter (sectionBelowThreshold length) sections).2 ++
      [("miscellaneous",
        (drain_filter (sectionBelowThreshold length) sections).1.foldl
          (fun acc s => (acc + s.2) % 2 ^ 32) 0)]

/-- Mirror of the regions_better construction, src/main.rs lines 428-465:
one RegionWithSections per parsed region, in region order, holding the
correlated then aggregated section list. -/
def buildRegions (regions : List MemoryRegion)
    (rules : List (String × String × Option String))
    (sizes : List (String × Nat)) : List RegionWithSections :=
  regions.map (fun reg =>
    { name := reg.name, length := reg.length,
      sections := aggregateInsignificant reg.length (correlate rules sizes reg) })

/-- Remove the first region with the given name, returning it and the rest;
mirror of position followed by Vec remove, src/main.rs lines 476-480. -/
def removeFirstNamed (nm : String) :
    List RegionWithSections → Option (RegionWithSections × List RegionWithSections)
  | [] => none
  | r :: rs =>
    if r.name == nm then some (r, rs)
    else
      match removeFirstNamed nm rs with
      | none => none
      | some x => some (x.1, r :: x.2)

/-- Apply f to the first region with the given name, leaving the list
unchanged when there is none; mirror of iter_mut().find followed by a
mutation, src/main.rs lines 481-490 and 497-508. -/
def modifyFirstNamed (nm : String) (f : RegionWithSections → RegionWithSections) :
    List RegionWithSections → List RegionWithSections
  | [] => []
  | r :: rs => if r.name == nm then f r :: rs else r :: modifyFirstNamed nm f rs

/-- Remove the first section with the given name, if any; mirror of position
followed by Vec remove on the section list, src/main.rs lines 501-507. -/
def removeFirstSection (nm : String) : List (String × Nat) → List (String × Nat)
  | [] => []
  | s :: ss => if s.1 == nm then ss else s :: removeFirstSection nm ss

/-- Mirror of one edit application, src/main.rs lines 470-510. GroupRegions:
if a region with the source name exists, remove the first such region, then,
if a region with the output name exists among the remaining ones, push
(output_section_name, source length as u32) at index 0 of its section list
and add the source length to its length (u64). Ignore: if a region with the
given name exists and holds a section with the given name, remove the first
such section. -/
def applySectionEdit (regions : List RegionWithSections) :
    SectionEdit → List RegionWithSections
  | SectionEdit.GroupRegions src dst secName =>
    match removeFirstNamed src regions with
    | none => regions
    | some (srcReg, rest) =>
      modifyFirstNamed dst (fun r =>
        { r with
          sections := (secName, srcReg.length % 2 ^ 32) :: r.sections,
          length := (r.length + srcReg.length) % 2 ^ 64 }) rest
  | SectionEdit.Ignore rn sn =>
    modifyFirstNamed rn (fun r => { r with sections := removeFirstSection sn r.sections })
      regions

/-- Mirror of the if-let over the decoded edits, src/main.rs lines 469-511:
no edit list means no change; otherwise the edits are applied in file order. -/
def applyEditsStage (edits : Option (List SectionEdit))
    (regions : List RegionWithSections) : List RegionWithSections :=
  match edits with
  | none => regions
  | some es => es.foldl applySectionEdit regions

/-- Mirror of fn get_section_edits (src/main.rs lines 516-534) over an
abstract filesystem (path to optional readable contents) and an abstract
JSON decoder standing for serde_json::from_str. A path with no contents
makes the function bail with the "does not exist" error; otherwise the
decoding result is converted with .ok(), so a decode failure yields Ok None. -/
def get_section_edits (fs : String → Option String)
    (parseEdits : String → Option (List SectionEdit)) (edits_file : String) :
    Except String (Option (List SectionEdit)) :=
  match fs edits_file with
  | none => Except.error ("Section edits file does not exist: " ++ edits_file)
  | some data => Except.ok (parseEdits data)

/-- Mirror of src/main.rs line 145: an absent --section-edits value defaults
to the empty string before being turned into a path. -/
def editsPathOfFlag (flag : Option String) : String := flag.getD ""

/-- Mirror of the last_sizes load, src/main.rs lines 124-136, over an
abstract filesystem and decoder: a missing file yields None, and a decode
failure on an existing file is swallowed by .ok() into None as well. -/
def load_last_sizes (fs : String → Option String)
    (parseLayout : String → Option (List RegionWithSections)) (last_file : String) :
    Option (List RegionWithSections) :=
  match fs last_file with
  | none => none
  | some data => parseLayout data

/-- Mirror of the per-region diff computation in fn print_memory_sections,
src/main.rs lines 259-285: find the previous region of the same name, and
for each current section pair produce (name, size, size - previous_size)
where previous_size is the size of the first previous section of the same
name, defaulting to the current size (so the delta defaults to zero).
The i64 subtraction of two u32 values is exact, hence plain Int here. -/
def sectionsWithDiff (reg : RegionWithSections)
    (regions_prev : Option (List RegionWithSections)) : List (String × Nat × Int) :=
  match regions_prev.bind (fun prev =>
      (prev.find? (fun r => r.name == reg.name)).map (fun r => r.sections)) with
  | none => reg.sections.map (fun p => (p.1, p.2, (0 : Int)))
  | some prev_s => reg.sections.map (fun p =>
      (p.1, p.2,
        (p.2 : Int) -
          ((((prev_s.find? (fun q => q.1 == p.1)).map (fun q => q.2)).getD p.2 : Nat) : Int)))

/-- Composition of the linker-script stage, src/main.rs lines 378-514, after
parsing: build the regions from the rules and sizes, then apply the edits. -/
def get_regions_and_sections (regions : List MemoryRegion)
    (cmds : List (String × Option String × Option String))
    (sizes : List (String × Nat)) (edits : Option (List SectionEdit)) :
    List RegionWithSections :=
  applyEditsStage edits (buildRegions regions (extractPlacementRules cmds) sizes)

/-- The imperative drain loop computes the filter by the predicate and the
filter by its negation, each in input order. -/
theorem drain_filter_eq {α : Type} (p : α → Bool) (l : List α) :
    drain_filter p l = (l.filter p, l.filter (fun x => !(p x))) := by
  induction l with
  | nil => rfl
  | cons x xs ih =>
    simp only [drain_filter, ih]
    by_cases hx : p x
    · simp [List.filter, hx]
    · simp [List.filter, hx]

/-- Folding wrapping u32 addition from an in-range accumulator is the exact
sum reduced mod 2 ^ 32. -/
theorem foldl_wrap_add (l : List (String × Nat)) (a : Nat) (ha : a < 2 ^ 32) :
    l.foldl (fun acc s => (acc + s.2) % 2 ^ 32) a
      = (a + (l.map (fun s => s.2)).sum) % 2 ^ 32 := by
  induction l generalizing a with
  | nil => simpa using (Nat.mod_eq_of_lt ha).symm
  | cons x xs ih =>
    simp only [List.foldl_cons, List.map_cons, List.sum_cons]
    rw [ih ((a + x.2) % 2 ^ 32) (Nat.mod_lt _ (by norm_num))]
    rw [Nat.mod_add_mod]
    ring_nf

/-- C2: Insignificance aggregation, amended. For every Region with nonzero
capacity, the sections whose percentage is below 2.0 are removed (those are
exactly the ones with 50 * size < capacity), the surviving sections keep
their correlation order, and if any section was removed a single
"miscellaneous" record is appended at the end whose size is the sum of the
removed sizes reduced mod 2 ^ 32 (the source accumulates it in u32
arithmetic; the reduction is the identity whenever the sum fits in 32 bits). -/
theorem aggregation_drops_insignificant (length : Nat) (sections : List (String × Nat))
    (h : 0 < length) :
    aggregateInsignificant length sections =
      sections.filter (fun s => !(sectionBelowThreshold length s)) ++
        (if (sections.filter (sectionBelowThreshold length)).isEmpty then []
         else [("miscellaneous",
           ((sections.filter (sectionBelowThreshold length)).map (fun s => s.2)).sum
             % 2 ^ 32)]) := by
  have hlt : (0 : Nat) < 2 ^ 32 := by norm_num
  simp only [aggregateInsignificant, drain_filter_eq]
  by_cases he : (sections.filter (sectionBelowThreshold length)).isEmpty
  · simp [he]
  · rw [foldl_wrap_add _ 0 hlt, Nat.zero_add]
    simp [he]

/-- C2 witness: the FLASH scenario of spec section 8 with capacity 524288 and
sections .text 130000, .data 2000, .rodata 500. -/
theorem aggregation_drops_insignificant_witness :
    0 < 524288 ∧
    aggregateInsignificant 524288 [(".text", 130000), (".data", 2000), (".rodata", 500)] =
      [(".text", 130000), (".data", 2000), (".rodata", 500)].filter
          (fun s => !(sectionBelowThreshold 524288 s)) ++
        (if ([(".text", 130000), (".data", 2000), (".rodata", 500)].filter
              (sectionBelowThreshold 524288)).isEmpty then []
         else [("miscellaneous",
           (([(".text", 130000), (".data", 2000), (".rodata", 500)].filter
               (sectionBelowThreshold 524288)).map (fun s => s.2)).sum % 2 ^ 32)]) :=
  ⟨by decide,
   aggregation_drops_insignificant 524288
     [(".text", 130000), (".data", 2000), (".rodata", 500)] (by decide)⟩

/-- C2 counterexample to the claim as stated: in a region of capacity 2 ^ 40,
two sections of size 2 ^ 31 are both below the 2 percent threshold, but the
miscellaneous record receives size (2 ^ 31 + 2 ^ 31) mod 2 ^ 32 = 0, not the
exact sum 2 ^ 32, because the source sums section sizes in u32 arithmetic. -/
theorem aggregation_miscellaneous_wraps :
    aggregateInsignificant (2 ^ 40) [("a", 2 ^ 31), ("b", 2 ^ 31)]
        = [("miscellaneous", 0)] ∧
      aggregateInsignificant (2 ^ 40) [("a", 2 ^ 31), ("b", 2 ^ 31)]
        ≠ [("miscellaneous", 2 ^ 31 + 2 ^ 31)] := by
  constructor
  · rfl
  · decide

/-- C7 amended: when the edits file exists but its content does not decode,
get_section_edits swallows the failure into Ok None, and the edit stage run
with no edits leaves every layout unchanged: the run silently continues. -/
theorem malformed_edits_file_swallowed (fs : String → Option String)
    (parseEdits : String → Option (List SectionEdit)) (path data : String)
    (regions : List RegionWithSections)
    (hex : fs path = some data) (hparse : parseEdits data = none) :
    get_section_edits fs parseEdits path = Except.ok none
      ∧ applyEditsStage none regions = regions := by
  constructor
  · simp [get_section_edits, hex, hparse]
  · rfl

/-- C7 witness for the amended claim at a concrete filesystem and decoder. -/
theorem malformed_edits_file_swallowed_witness :
    (fun p => if p == "edits.json" then some "not json" else none) "edits.json"
        = some "not json"
      ∧ (fun _ : String => (none : Option (List SectionEdit))) "not json" = none
      ∧ (get_section_edits (fun p => if p == "edits.json" then some "not json" else none)
            (fun _ => none) "edits.json" = Except.ok none
          ∧ applyEditsStage none [⟨"FLASH", 1024, [(".text", 100)]⟩]
              = [⟨"FLASH", 1024, [(".text", 100)]⟩]) :=
  ⟨rfl, rfl,
   malformed_edits_file_swallowed _ _ "edits.json" "not json"
     [⟨"FLASH", 1024, [(".text", 100)]⟩] rfl rfl⟩

/-- C7 counterexample to the claim as stated: with an existing edits file
whose content decodes to nothing, the run does not abort; it returns Ok with
no edits and the layout passes through the edit stage unchanged. -/
theorem malformed_edits_file_not_fatal :
    get_section_edits (fun p => if p == "edits.json" then some "not json" else none)
        (fun _ => none) "edits.json" = Except.ok none
      ∧ applyEditsStage none [⟨"FLASH", 1024, [(".text", 100)]⟩]
          = [⟨"FLASH", 1024, [(".text", 100)]⟩] := by
  constructor <;> rfl

/-- C6: evidence of the code bug. Whenever the --section-edits flag is
absent, the source defaults the path to the empty string, which names no
existing file, so get_section_edits returns the fatal "does not exist"
error and the run fails instead of proceeding with no edits. -/
theorem absent_edits_flag_is_fatal (fs : String → Option String)
    (parseEdits : String → Option (List SectionEdit)) (h : fs "" = none) :
    ∃ msg, get_section_edits fs parseEdits (editsPathOfFlag none)
        = Except.error msg := by
  refine ⟨"Section edits file does not exist: " ++ "", ?_⟩
  simp [get_section_edits, editsPathOfFlag, h]

/-- C6 witness at a concrete filesystem on which no path exists. -/
theorem absent_edits_flag_is_fatal_witness :
    ((fun _ : String => (none : Option String)) "" = none)
      ∧ ∃ msg, get_section_edits (fun _ => none)
          (fun _ : String => (none : Option (List SectionEdit)))
          (editsPathOfFlag none) = Except.error msg :=
  ⟨rfl, absent_edits_flag_is_fatal _ _ rfl⟩

/-- C8: an existing prior-history file whose content does not decode is
treated exactly like a missing one: the load yields None and every diff
computed against it is zero. -/
theorem unreadable_history_is_silent (fs : String → Option String)
    (parseLayout : String → Option (List RegionWithSections)) (path data : String)
    (hex : fs path = some data) (hparse : parseLayout data = none) :
    load_last_sizes fs parseLayout path = none
      ∧ ∀ (reg : RegionWithSections) (rec : String × Nat × Int),
          rec ∈ sectionsWithDiff reg (load_last_sizes fs parseLayout path) →
            rec.2.2 = 0 := by
  have h1 : load_last_sizes fs parseLayout path = none := by
    simp [load_last_sizes, hex, hparse]
  refine ⟨h1, ?_⟩
  intro reg rec hmem
  rw [h1] at hmem
  simp only [sectionsWithDiff, Option.none_bind, List.mem_map] at hmem
  obtain ⟨p, _, hp⟩ := hmem
  rw [← hp]

/-- C8 witness at a concrete filesystem, decoder, and region. -/
theorem unreadable_history_is_silent_witness :
    ((fun p => if p == "fw-size.last" then some "old format" else none) "fw-size.last"
        = some "old format")
      ∧ ((fun _ : String => (none : Option (List RegionWithSections))) "old format" = none)
      ∧ (load_last_sizes (fun p => if p == "fw-size.last" then some "old format" else none)
            (fun _ => none) "fw-size.last" = none
          ∧ ∀ (reg : RegionWithSections) (rec : String × Nat × Int),
              rec ∈ sectionsWithDiff reg
                  (load_last_sizes
                    (fun p => if p == "fw-size.last" then some "old format" else none)
                    (fun _ => none) "fw-size.last") →
                rec.2.2 = 0) :=
  ⟨rfl, rfl, unreadable_history_is_silent _ _ "fw-size.last" "old format" rfl rfl⟩

/-- When no region bears the given name, the removal finds nothing. -/
theorem removeFirstNamed_eq_none (nm : String) (l : List RegionWithSections)
    (h : ∀ r ∈ l, r.name ≠ nm) : removeFirstNamed nm l = none := by
  induction l with
  | nil => rfl
  | cons r rs ih =>
    have hr : ¬(r.name == nm) = true := by
      simp only [beq_iff_eq]
      exact h r (List.mem_cons_self r rs)
    simp only [removeFirstNamed, if_neg hr,
      ih (fun x hx => h x (List.mem_cons_of_mem r hx))]

/-- When the modification acts as the identity on every region bearing the
given name, the whole pass is the identity. -/
theorem modifyFirstNamed_eq_self (nm : String) (f : RegionWithSections → RegionWithSections)
    (l : List RegionWithSections) (h : ∀ r ∈ l, r.name = nm → f r = r) :
    modifyFirstNamed nm f l = l := by
  induction l with
  | nil => rfl
  | cons r rs ih =>
    by_cases hr : r.name = nm
    · simp [modifyFirstNamed, hr, h r (List.mem_cons_self r rs) hr]
    · simp [modifyFirstNamed, hr, ih (fun x hx hnx => h x (List.mem_cons_of_mem r hx) hnx)]

/-- When no section bears the given name, the removal changes nothing. -/
theorem removeFirstSection_eq_self (nm : String) (l : List (String × Nat))
    (h : ∀ p ∈ l, p.1 ≠ nm) : removeFirstSection nm l = l := by
  induction l with
  | nil => rfl
  | cons s ss ih =>
    have hs : ¬(s.1 == nm) = true := by
      simp only [beq_iff_eq]
      exact h s (List.mem_cons_self s ss)
    simp only [removeFirstSection, if_neg hs,
      ih (fun p hp => h p (List.mem_cons_of_mem s hp))]

/-- C5 amended: a GroupRegions edit whose source region does not exist, an
Ignore edit whose region does not exist, and an Ignore edit whose region
exists but holds no section of the given name, all leave the Layout
completely unchanged (and, being total functions, never fail the run).
A GroupRegions edit whose source exists but whose destination does not is
NOT a no-op: it still removes the source region (see the counterexample). -/
theorem unmatched_edits_are_noops :
    (∀ (regions : List RegionWithSections) (src dst nm : String),
        (∀ r ∈ regions, r.name ≠ src) →
          applySectionEdit regions (SectionEdit.GroupRegions src dst nm) = regions)
      ∧ (∀ (regions : List RegionWithSections) (rn sn : String),
          (∀ r ∈ regions, r.name ≠ rn) →
            applySectionEdit regions (SectionEdit.Ignore rn sn) = regions)
      ∧ (∀ (regions : List RegionWithSections) (rn sn : String),
          (∀ r ∈ regions, r.name = rn → ∀ p ∈ r.sections, p.1 ≠ sn) →
            applySectionEdit regions (SectionEdit.Ignore rn sn) = regions) := by
  refine ⟨?_, ?_, ?_⟩
  · intro regions src dst nm h
    simp [applySectionEdit, removeFirstNamed_eq_none src regions h]
  · intro regions rn sn h
    exact modifyFirstNamed_eq_self rn _ regions
      (fun r hr hname => absurd hname (h r hr))
  · intro regions rn sn h
    refine modifyFirstNamed_eq_self rn _ regions (fun r hr hname => ?_)
    have hsec := removeFirstSection_eq_self sn r.sections (h r hr hname)
    cases r
    simpa using hsec

/-- C5 witness: the three no-op cases at a concrete one-region layout. -/
theorem unmatched_edits_are_noops_witness :
    applySectionEdit [⟨"FLASH", 1024, [(".text", 100)]⟩]
        (SectionEdit.GroupRegions "BOOT" "FLASH" "bootloader")
        = [⟨"FLASH", 1024, [(".text", 100)]⟩]
      ∧ applySectionEdit [⟨"FLASH", 1024, [(".text", 100)]⟩]
          (SectionEdit.Ignore "RAM" ".text")
          = [⟨"FLASH", 1024, [(".text", 100)]⟩]
      ∧ applySectionEdit [⟨"FLASH", 1024, [(".text", 100)]⟩]
          (SectionEdit.Ignore "FLASH" ".bss")
          = [⟨"FLASH", 1024, [(".text", 100)]⟩] :=
  ⟨unmatched_edits_are_noops.1 [⟨"FLASH", 1024, [(".text", 100)]⟩] "BOOT" "FLASH"
      "bootloader" (by decide),
   unmatched_edits_are_noops.2.1 [⟨"FLASH", 1024, [(".text", 100)]⟩] "RAM" ".text"
      (by decide),
   unmatched_edits_are_noops.2.2 [⟨"FLASH", 1024, [(".text", 100)]⟩] "FLASH" ".bss"
      (by decide)⟩

/-- C5 counterexample to the claim as stated: a GroupRegions edit whose
destination region does not exist in the layout is not a no-op; the source
region is removed first and is then dropped entirely. -/
theorem group_regions_missing_dest_not_noop :
    applySectionEdit [⟨"BOOT", 8192, []⟩]
        (SectionEdit.GroupRegions "BOOT" "FLASH" "bootloader") = []
      ∧ applySectionEdit [⟨"BOOT", 8192, []⟩]
          (SectionEdit.GroupRegions "BOOT" "FLASH" "bootloader")
          ≠ [⟨"BOOT", 8192, []⟩] := by
  constructor
  · rfl
  · decide

/-- C9 amended: the names of the records a region receives from correlation
form a sublist of the placement-rule names in linker-script order; the
correlation order is the rule order, not the sample discovery order. -/
theorem correlation_follows_rule_order (rules : List (String × String × Option String))
    (sizes : List (String × Nat)) (reg : MemoryRegion) :
    List.Sublist ((correlate rules sizes reg).map (fun p => p.1))
      (rules.map (fun r => r.1)) := by
  induction rules with
  | nil => simp [correlate]
  | cons r rs ih =>
    simp only [correlate, List.map_cons] at ih ⊢
    rw [List.filter_cons]
    by_cases hc : (r.2.1 == reg.name || (r.2.2.getD "") == reg.name) = true
    · rw [if_pos hc, List.filterMap_cons]
      cases hls : lookupSize sizes r.1 with
      | none =>
        simp only [hls]
        exact List.Sublist.cons r.1 ih
      | some s =>
        cases s with
        | zero =>
          simp only [hls]
          exact List.Sublist.cons r.1 ih
        | succ m =>
          simp only [hls, List.map_cons]
          exact List.Sublist.cons₂ r.1 ih
    · rw [if_neg hc]
      exact List.Sublist.cons r.1 ih

/-- C9 counterexample to the claim as stated: the inventory lists b before a
(discovery order), the linker script lists a before b, and the correlated
records come out in rule order a, b, not in discovery order b, a. -/
theorem correlation_not_discovery_order :
    correlate [("a", "R", none), ("b", "R", none)] [("b", 100), ("a", 200)] ⟨"R", 1000⟩
        = [("a", 200), ("b", 100)]
      ∧ correlate [("a", "R", none), ("b", "R", none)] [("b", 100), ("a", 200)] ⟨"R", 1000⟩
          ≠ [("b", 100), ("a", 200)] := by
  constructor
  · rfl
  · decide

/-- C3: every record the differ produces carries the delta current size minus
the size of the first same-named section of the first same-named prior
region, and the delta zero whenever the prior layout, the prior region, or
the prior section is missing. -/
theorem diff_delta_characterisation (regions_prev : Option (List RegionWithSections))
    (reg : RegionWithSections) (n : String) (s : Nat) (d : Int)
    (hmem : (n, s, d) ∈ sectionsWithDiff reg regions_prev) :
    d = match regions_prev.bind (fun prev => prev.find? (fun r => r.name == reg.name)) with
        | none => 0
        | some prevReg =>
          match prevReg.sections.find? (fun q => q.1 == n) with
          | none => 0
          | some q => (s : Int) - (q.2 : Int) := by
  cases regions_prev with
  | none =>
    simp only [sectionsWithDiff, Option.none_bind, List.mem_map] at hmem
    obtain ⟨p, _, hp⟩ := hmem
    have h3 : (0 : Int) = d := congrArg (fun x => x.2.2) hp
    simp [← h3]
  | some prevList =>
    cases hf : prevList.find? (fun r => r.name == reg.name) with
    | none =>
      simp only [sectionsWithDiff, Option.some_bind, hf, Option.map_none',
        List.mem_map] at hmem
      obtain ⟨p, _, hp⟩ := hmem
      have h3 : (0 : Int) = d := congrArg (fun x => x.2.2) hp
      simp [Option.some_bind, hf, ← h3]
    | some prevReg =>
      simp only [sectionsWithDiff, Option.some_bind, hf, Option.map_some',
        List.mem_map] at hmem
      obtain ⟨p, _, hp⟩ := hmem
      have h1 : p.1 = n := congrArg Prod.fst hp
      have h2 : p.2 = s := congrArg (fun x => x.2.1) hp
      have h3 : (p.2 : Int) -
          ((((prevReg.sections.find? (fun q => q.1 == p.1)).map
              (fun q => q.2)).getD p.2 : Nat) : Int) = d :=
        congrArg (fun x => x.2.2) hp
      rw [h1, h2] at h3
      conv_rhs => rw [Option.some_bind, hf]
      show d = match prevReg.sections.find? (fun q => q.1 == n) with
        | none => 0
        | some q => (s : Int) - (q.2 : Int)
      cases hq : prevReg.sections.find? (fun q => q.1 == n) with
      | none =>
        rw [hq] at h3
        simp only [Option.map_none', Option.getD_none] at h3
        simp [← h3]
      | some q =>
        rw [hq] at h3
        simp only [Option.map_some', Option.getD_some] at h3
        simp [← h3]

/-- C3 witness: a concrete current region diffed against a concrete prior
layout in which the section shrank by 10 bytes. -/
theorem diff_delta_characterisation_witness :
    (("x", (25 : Nat), (15 : Int)) ∈
        sectionsWithDiff ⟨"R", 100, [("x", 25)]⟩ (some [⟨"R", 100, [("x", 10)]⟩]))
      ∧ ((15 : Int) =
          match (some [(⟨"R", 100, [("x", 10)]⟩ : RegionWithSections)]).bind
              (fun prev => prev.find? (fun r => r.name == "R")) with
          | none => 0
          | some prevReg =>
            match prevReg.sections.find? (fun q => q.1 == "x") with
            | none => 0
            | some q => ((25 : Nat) : Int) - (q.2 : Int)) :=
  ⟨by decide,
   diff_delta_characterisation (some [⟨"R", 100, [("x", 10)]⟩]) ⟨"R", 100, [("x", 25)]⟩
     "x" 25 15 (by decide)⟩

/-- Membership in the correlated list, phrased with the raw boolean match
condition of the source. -/
theorem mem_correlate (rules : List (String × String × Option String))
    (sizes : List (String × Nat)) (reg : MemoryRegion) (n : String) (s : Nat) :
    (n, s) ∈ correlate rules sizes reg ↔
      ∃ r ∈ rules, r.1 = n
        ∧ (r.2.1 == reg.name || (r.2.2.getD "") == reg.name) = true
        ∧ lookupSize sizes n = some s ∧ s ≠ 0 := by
  simp only [correlate, List.mem_filterMap, List.mem_filter]
  constructor
  · rintro ⟨r, ⟨hr, hcond⟩, hfn⟩
    cases hls : lookupSize sizes r.1 with
    | none => rw [hls] at hfn; exact absurd hfn (by simp)
    | some k =>
      cases k with
      | zero => rw [hls] at hfn; exact absurd hfn (by simp)
      | succ m =>
        rw [hls] at hfn
        have hinj := Option.some.inj hfn
        have h1 : r.1 = n := congrArg Prod.fst hinj
        have h2 : m + 1 = s := congrArg Prod.snd hinj
        refine ⟨r, hr, h1, hcond, ?_, ?_⟩
        · rw [← h1, hls, h2]
        · rw [← h2]; exact Nat.succ_ne_zero m
  · rintro ⟨r, hr, h1, hcond, hls, hs⟩
    refine ⟨r, ⟨hr, hcond⟩, ?_⟩
    rw [h1, hls]
    cases s with
    | zero => exact absurd rfl hs
    | succ m => rfl

/-- The boolean region-match condition of the source, read propositionally:
for a region with a nonempty name, it holds exactly when the vma region name
matches or the lma region name is present and matches. -/
theorem match_cond_iff (reg : MemoryRegion) (h : reg.name ≠ "")
    (r : String × String × Option String) :
    ((r.2.1 == reg.name || (r.2.2.getD "") == reg.name) = true)
      ↔ (r.2.1 = reg.name ∨ r.2.2 = some reg.name) := by
  rw [Bool.or_eq_true, beq_iff_eq, beq_iff_eq]
  apply or_congr Iff.rfl
  cases ho : r.2.2 with
  | none =>
    simp only [Option.getD_none]
    exact iff_of_false (fun he => h he.symm) (fun hc => Option.noConfusion hc)
  | some x =>
    simp only [Option.getD_some]
    exact Option.some_inj.symm

/-- C1 amended: for every Region whose name is nonempty, the correlated list
contains a record (n, s) exactly when some placement rule names n with the
Region as its vma region or its lma region, and the inventory carries the
nonzero size s for n. (A Region whose name is the empty string additionally
captures every rule without an lma region, because the source compares the
Region name against lma_reg_name.map_or of the empty string; see the
counterexample.) -/
theorem correlator_membership (rules : List (String × String × Option String))
    (sizes : List (String × Nat)) (reg : MemoryRegion) (h : reg.name ≠ "")
    (n : String) (s : Nat) :
    (n, s) ∈ correlate rules sizes reg ↔
      ((∃ r ∈ rules, r.1 = n ∧ (r.2.1 = reg.name ∨ r.2.2 = some reg.name))
        ∧ lookupSize sizes n = some s ∧ s ≠ 0) := by
  rw [mem_correlate]
  constructor
  · rintro ⟨r, hr, h1, hcond, hls, hs⟩
    exact ⟨⟨r, hr, h1, (match_cond_iff reg h r).mp hcond⟩, hls, hs⟩
  · rintro ⟨⟨r, hr, h1, hcond⟩, hls, hs⟩
    exact ⟨r, hr, h1, (match_cond_iff reg h r).mpr hcond, hls, hs⟩

/-- C1 witness: a .data section stored in FLASH (lma) while running in RAM
(vma) is a member of the FLASH region by the lma disjunct. -/
theorem correlator_membership_witness :
    ("FLASH" : String) ≠ ""
      ∧ ((".data", 100) ∈ correlate [(".data", "RAM", some "FLASH")]
            [(".data", 100)] ⟨"FLASH", 1000⟩ ↔
          ((∃ r ∈ [(".data", "RAM", some "FLASH")], r.1 = ".data"
              ∧ (r.2.1 = "FLASH" ∨ r.2.2 = some "FLASH"))
            ∧ lookupSize [(".data", 100)] ".data" = some 100 ∧ 100 ≠ 0)) :=
  ⟨by decide,
   correlator_membership [(".data", "RAM", some "FLASH")] [(".data", 100)]
     ⟨"FLASH", 1000⟩ (by decide) ".data" 100⟩

/-- C1 counterexample to the claim as stated: a region named by the empty
string receives the record of a rule whose vma region is a different name
and whose lma region is absent altogether, because an absent lma region is
compared as the empty string. -/
theorem correlator_matches_empty_name_region :
    ("s", 5) ∈ correlate [("s", "OTHER", none)] [("s", 5)] ⟨"", 100⟩
      ∧ ("OTHER" : String) ≠ ""
      ∧ (none : Option String) ≠ some "" := by
  refine ⟨by decide, by decide, by decide⟩

/-- C10: an output-section command without a vma region is dropped by the
rule extraction, so a sample named only by such commands appears in no
region of the layout, not even in the region its lma region names. -/
theorem vma_less_rules_discarded (cmds : List (String × Option String × Option String))
    (sizes : List (String × Nat)) (reg : MemoryRegion) (n : String) (s : Nat)
    (h : ∀ c ∈ cmds, c.1 = n → c.2.1 = none) :
    (n, s) ∉ correlate (extractPlacementRules cmds) sizes reg := by
  intro hmem
  rw [mem_correlate] at hmem
  obtain ⟨r, hr, h1, -, -, -⟩ := hmem
  simp only [extractPlacementRules, List.mem_map, List.mem_filter] at hr
  obtain ⟨c, ⟨hc, hcsome⟩, hcr⟩ := hr
  have hc1 : c.1 = n := (congrArg Prod.fst hcr).trans h1
  rw [h c hc hc1] at hcsome
  exact absurd hcsome (by simp)

/-- C10 witness: a command declaring only an lma region L for section s
leaves s out of the region named L. -/
theorem vma_less_rules_discarded_witness :
    (∀ c ∈ [("s", (none : Option String), some "L")], c.1 = "s" → c.2.1 = none)
      ∧ ("s", 5) ∉ correlate (extractPlacementRules [("s", none, some "L")])
          [("s", 5)] ⟨"L", 100⟩ :=
  ⟨by decide,
   vma_less_rules_discarded [("s", none, some "L")] [("s", 5)] ⟨"L", 100⟩ "s" 5
     (by decide)⟩

/-- When some region bears the given name, the removal finds one. -/
theorem removeFirstNamed_isSome (nm : String) (l : List RegionWithSections)
    (r : RegionWithSections) (hr : r ∈ l) (hn : r.name = nm) :
    ∃ x rest, removeFirstNamed nm l = some (x, rest) := by
  induction l with
  | nil => cases hr
  | cons a as ih =>
    by_cases ha : a.name = nm
    · exact ⟨a, as, by simp [removeFirstNamed, ha]⟩
    · have hr2 : r ∈ as := by
        cases List.mem_cons.mp hr with
        | inl he => exact absurd (he ▸ hn) ha
        | inr h2 => exact h2
      obtain ⟨x, rest, hx⟩ := ih hr2
      have hna : ¬(a.name == nm) = true := by simp [ha]
      refine ⟨x, a :: rest, ?_⟩
      rw [removeFirstNamed, if_neg hna, hx]

/-- What a successful removal returns: the first region with the name, the
list around it, and the guarantee that nothing before it bears the name. -/
theorem removeFirstNamed_spec (nm : String) (l : List RegionWithSections)
    (x : RegionWithSections) (rest : List RegionWithSections)
    (h : removeFirstNamed nm l = some (x, rest)) :
    x.name = nm ∧ ∃ l₁ l₂, l = l₁ ++ x :: l₂ ∧ rest = l₁ ++ l₂
      ∧ ∀ y ∈ l₁, y.name ≠ nm := by
  induction l generalizing x rest with
  | nil => cases h
  | cons a as ih =>
    by_cases ha : (a.name == nm) = true
    · rw [removeFirstNamed, if_pos ha] at h
      have hax : a = x := congrArg Prod.fst (Option.some.inj h)
      have hrest : as = rest := congrArg Prod.snd (Option.some.inj h)
      subst hax
      subst hrest
      exact ⟨beq_iff_eq.mp ha, [], as, rfl, rfl, fun y hy => absurd hy (List.not_mem_nil y)⟩
    · rw [removeFirstNamed, if_neg ha] at h
      cases hy : removeFirstNamed nm as with
      | none => rw [hy] at h; cases h
      | some y =>
        rw [hy] at h
        have h1 : y.1 = x := congrArg Prod.fst (Option.some.inj h)
        have h2 : a :: y.2 = rest := congrArg Prod.snd (Option.some.inj h)
        obtain ⟨hyname, l₁, l₂, hl, hrest2, hnone⟩ := ih y.1 y.2 (by rw [hy])
        refine ⟨h1 ▸ hyname, a :: l₁, l₂, ?_, ?_, ?_⟩
        · rw [List.cons_append, ← h1, ← hl]
        · rw [← h2, hrest2, List.cons_append]
        · intro z hz
          cases List.mem_cons.mp hz with
          | inl hza =>
            subst hza
            exact fun hc => ha (beq_iff_eq.mpr hc)
          | inr hzm => exact hnone z hzm


/-- In a list with pairwise distinct region names, regions are determined by
their name. -/
theorem eq_of_name_eq_of_nodup (l : List RegionWithSections)
    (hnd : (l.map (fun r => r.name)).Nodup) (a b : RegionWithSections)
    (ha : a ∈ l) (hb : b ∈ l) (hn : a.name = b.name) : a = b := by
  induction l with
  | nil => cases ha
  | cons x xs ih =>
    rw [List.map_cons, List.nodup_cons] at hnd
    cases List.mem_cons.mp ha with
    | inl hax =>
      cases List.mem_cons.mp hb with
      | inl hbx => rw [hax, hbx]
      | inr hbm =>
        exfalso
        apply hnd.1
        rw [hax] at hn
        rw [hn]
        exact List.mem_map_of_mem _ hbm
    | inr ham =>
      cases List.mem_cons.mp hb with
      | inl hbx =>
        exfalso
        apply hnd.1
        rw [hbx] at hn
        rw [← hn]
        exact List.mem_map_of_mem _ ham
      | inr hbm => exact ih hnd.2 ham hbm

/-- A member of a list with pairwise distinct names splits the list at its
unique position, with no earlier element of the same name. -/
theorem first_decomp_of_nodup (l : List RegionWithSections) (d : RegionWithSections)
    (hnd : (l.map (fun r => r.name)).Nodup) (hd : d ∈ l) :
    ∃ m₁ m₂, l = m₁ ++ d :: m₂ ∧ ∀ y ∈ m₁, y.name ≠ d.name := by
  induction l with
  | nil => cases hd
  | cons a as ih =>
    rw [List.map_cons, List.nodup_cons] at hnd
    cases List.mem_cons.mp hd with
    | inl he => exact ⟨[], as, by rw [he, List.nil_append], by simp⟩
    | inr hin =>
      obtain ⟨m₁, m₂, hl, hm⟩ := ih hnd.2 hin
      refine ⟨a :: m₁, m₂, by rw [hl, List.cons_append], ?_⟩
      intro y hy
      cases List.mem_cons.mp hy with
      | inl hya =>
        subst hya
        intro hcontra
        apply hnd.1
        rw [hcontra]
        exact List.mem_map_of_mem _ hin
      | inr hym => exact hm y hym

/-- The modification pass does not change the sequence of names when the
modification preserves the name. -/
theorem modifyFirstNamed_map_name (nm : String)
    (f : RegionWithSections → RegionWithSections) (l : List RegionWithSections)
    (hf : ∀ r, (f r).name = r.name) :
    (modifyFirstNamed nm f l).map (fun r => r.name) = l.map (fun r => r.name) := by
  induction l with
  | nil => rfl
  | cons a as ih =>
    by_cases ha : a.name = nm
    · simp [modifyFirstNamed, ha, hf a]
    · simp [modifyFirstNamed, ha, ih]

/-- The modification pass applied to a decomposition whose pivot is the first
element of the given name modifies exactly the pivot. -/
theorem modifyFirstNamed_decomp (nm : String)
    (f : RegionWithSections → RegionWithSections) (m₁ : List RegionWithSections)
    (d : RegionWithSections) (m₂ : List RegionWithSections)
    (h₁ : ∀ y ∈ m₁, y.name ≠ nm) (hd : d.name = nm) :
    modifyFirstNamed nm f (m₁ ++ d :: m₂) = m₁ ++ f d :: m₂ := by
  induction m₁ with
  | nil => simp [modifyFirstNamed, hd]
  | cons a as ih =>
    have ha : ¬(a.name == nm) = true := by simp [h₁ a (List.mem_cons_self a as)]
    simp only [List.cons_append, modifyFirstNamed, if_neg ha, List.append_eq]
    rw [ih (fun y hy => h₁ y (List.mem_cons_of_mem a hy))]

/-- C4 amended: on a layout with pairwise distinct region names containing a
source region and a distinct destination region, GroupRegions removes the
source region (the remaining names keep their order), the destination gains
at index 0 a synthetic record whose size is the source capacity reduced mod
2 ^ 32 (the source casts the u64 length to u32) while its capacity grows by
the source capacity mod 2 ^ 64 (u64 wrapping addition), and every region
other than the destination survives unchanged. For capacities below 2 ^ 32
the record size is exactly the source capacity, as in the BOOT into FLASH
scenario of the witness. -/
theorem group_regions_effect (regions : List RegionWithSections)
    (srcReg dstReg : RegionWithSections) (src dst secName : String)
    (hnodup : (regions.map (fun r => r.name)).Nodup)
    (hs : srcReg ∈ regions) (hsn : srcReg.name = src)
    (hd : dstReg ∈ regions) (hdn : dstReg.name = dst)
    (hne : src ≠ dst) :
    ((applySectionEdit regions (SectionEdit.GroupRegions src dst secName)).map
        (fun r => r.name) = (regions.map (fun r => r.name)).erase src)
      ∧ (({ name := dst, length := (dstReg.length + srcReg.length) % 2 ^ 64,
            sections := (secName, srcReg.length % 2 ^ 32) :: dstReg.sections } :
              RegionWithSections)
          ∈ applySectionEdit regions (SectionEdit.GroupRegions src dst secName))
      ∧ (∀ r ∈ applySectionEdit regions (SectionEdit.GroupRegions src dst secName),
          r.name ≠ dst → r ∈ regions) := by
  obtain ⟨x, rest, hrem⟩ := removeFirstNamed_isSome src regions srcReg hs hsn
  obtain ⟨hxn, l₁, l₂, hl, hrest, hl₁⟩ := removeFirstNamed_spec src regions x rest hrem
  have hxsrc : x = srcReg := by
    apply eq_of_name_eq_of_nodup regions hnodup x srcReg ?_ hs (hxn.trans hsn.symm)
    rw [hl]
    exact List.mem_append_right _ (List.mem_cons_self x l₂)
  subst hxsrc
  have happ : applySectionEdit regions (SectionEdit.GroupRegions src dst secName)
      = modifyFirstNamed dst (fun r =>
          { r with sections := (secName, x.length % 2 ^ 32) :: r.sections,
                   length := (r.length + x.length) % 2 ^ 64 }) rest := by
    simp [applySectionEdit, hrem]
  have hrest_nodup : (rest.map (fun r => r.name)).Nodup := by
    rw [hrest]
    have hsub : List.Sublist (l₁ ++ l₂) (l₁ ++ x :: l₂) :=
      List.Sublist.append_left (List.Sublist.cons x (List.Sublist.refl l₂)) l₁
    have hnd2 : ((l₁ ++ x :: l₂).map (fun r => r.name)).Nodup := by
      rw [← hl]; exact hnodup
    exact hnd2.sublist (hsub.map (fun r => r.name))
  have hdrest : dstReg ∈ rest := by
    rw [hrest]
    rw [hl] at hd
    cases List.mem_append.mp hd with
    | inl h1 => exact List.mem_append_left _ h1
    | inr h2 =>
      cases List.mem_cons.mp h2 with
      | inl he =>
        exfalso
        apply hne
        rw [← hsn, ← hdn, he]
      | inr h3 => exact List.mem_append_right _ h3
  obtain ⟨m₁, m₂, hrd, hm₁⟩ := first_decomp_of_nodup rest dstReg hrest_nodup hdrest
  have hmod : modifyFirstNamed dst (fun r =>
      { r with sections := (secName, x.length % 2 ^ 32) :: r.sections,
               length := (r.length + x.length) % 2 ^ 64 }) rest
        = m₁ ++ ({ dstReg with
            sections := (secName, x.length % 2 ^ 32) :: dstReg.sections,
            length := (dstReg.length + x.length) % 2 ^ 64 }) :: m₂ := by
    rw [hrd]
    exact modifyFirstNamed_decomp dst _ m₁ dstReg m₂
      (fun y hy => by rw [← hdn]; exact hm₁ y hy) hdn
  have hfd : ({ dstReg with
      sections := (secName, x.length % 2 ^ 32) :: dstReg.sections,
      length := (dstReg.length + x.length) % 2 ^ 64 } : RegionWithSections)
        = { name := dst, length := (dstReg.length + x.length) % 2 ^ 64,
            sections := (secName, x.length % 2 ^ 32) :: dstReg.sections } := by
    rw [← hdn]
  have hrest_sub : ∀ r ∈ rest, r ∈ regions := by
    intro r hr
    rw [hl]
    rw [hrest] at hr
    cases List.mem_append.mp hr with
    | inl h1 => exact List.mem_append_left _ h1
    | inr h2 => exact List.mem_append_right _ (List.mem_cons_of_mem x h2)
  refine ⟨?_, ?_, ?_⟩
  · rw [happ, modifyFirstNamed_map_name dst (fun r =>
        { r with sections := (secName, x.length % 2 ^ 32) :: r.sections,
                 length := (r.length + x.length) % 2 ^ 64 }) rest (fun r => rfl),
      hrest, hl]
    rw [List.map_append, List.map_append, List.map_cons]
    have hnotin : src ∉ l₁.map (fun r => r.name) := by
      intro hmem
      obtain ⟨y, hy, hyn⟩ := List.mem_map.mp hmem
      exact hl₁ y hy hyn
    rw [List.erase_append_right _ hnotin, hxn, List.erase_cons_head]
  · rw [happ, hmod, hfd]
    exact List.mem_append_right _ (List.mem_cons_self _ m₂)
  · intro r hr hrname
    rw [happ, hmod] at hr
    cases List.mem_append.mp hr with
    | inl h1 => exact hrest_sub r (hrd ▸ List.mem_append_left _ h1)
    | inr h2 =>
      cases List.mem_cons.mp h2 with
      | inl he =>
        exfalso
        apply hrname
        rw [he, hfd]
      | inr h3 =>
        apply hrest_sub r
        rw [hrd]
        exact List.mem_append_right _ (List.mem_cons_of_mem dstReg h3)

/-- C4 witness: the BOOT into FLASH scenario of spec section 8: BOOT of
capacity 8192 grouped into FLASH of capacity 524288 yields FLASH capacity
532480 with a bootloader record of size 8192 at index 0, and BOOT is gone. -/
theorem group_regions_effect_witness :
    (([⟨"BOOT", 8192, []⟩, ⟨"FLASH", 524288, [(".text", 130000)]⟩] :
        List RegionWithSections).map (fun r => r.name)).Nodup
      ∧ (⟨"BOOT", 8192, []⟩ : RegionWithSections)
          ∈ [⟨"BOOT", 8192, []⟩, ⟨"FLASH", 524288, [(".text", 130000)]⟩]
      ∧ (⟨"FLASH", 524288, [(".text", 130000)]⟩ : RegionWithSections)
          ∈ [⟨"BOOT", 8192, []⟩, ⟨"FLASH", 524288, [(".text", 130000)]⟩]
      ∧ ("BOOT" : String) ≠ "FLASH"
      ∧ (((applySectionEdit [⟨"BOOT", 8192, []⟩, ⟨"FLASH", 524288, [(".text", 130000)]⟩]
              (SectionEdit.GroupRegions "BOOT" "FLASH" "bootloader")).map
              (fun r => r.name)
            = (([⟨"BOOT", 8192, []⟩, ⟨"FLASH", 524288, [(".text", 130000)]⟩] :
                List RegionWithSections).map (fun r => r.name)).erase "BOOT")
          ∧ (({ name := "FLASH", length := (524288 + 8192) % 2 ^ 64,
                sections := [("bootloader", 8192 % 2 ^ 32), (".text", 130000)] } :
                  RegionWithSections)
              ∈ applySectionEdit [⟨"BOOT", 8192, []⟩, ⟨"FLASH", 524288, [(".text", 130000)]⟩]
                  (SectionEdit.GroupRegions "BOOT" "FLASH" "bootloader"))
          ∧ (∀ r ∈ applySectionEdit [⟨"BOOT", 8192, []⟩, ⟨"FLASH", 524288, [(".text", 130000)]⟩]
                (SectionEdit.GroupRegions "BOOT" "FLASH" "bootloader"),
              r.name ≠ "FLASH" →
                r ∈ [⟨"BOOT", 8192, []⟩, ⟨"FLASH", 524288, [(".text", 130000)]⟩])) :=
  ⟨by decide, by decide, by decide, by decide,
   group_regions_effect [⟨"BOOT", 8192, []⟩, ⟨"FLASH", 524288, [(".text", 130000)]⟩]
     ⟨"BOOT", 8192, []⟩ ⟨"FLASH", 524288, [(".text", 130000)]⟩ "BOOT" "FLASH"
     "bootloader" (by decide) (by decide) rfl (by decide) rfl (by decide)⟩

/-- C4 counterexample to the claim as stated: a source capacity of 2 ^ 32 is
truncated to 0 by the u64 to u32 cast when it becomes the synthetic record
size, and the destination capacity addition wraps at 2 ^ 64, so the
destination ends with capacity 0 and a zero-sized record instead of
capacity 2 ^ 64 and a record of size 2 ^ 32. -/
theorem group_regions_truncates :
    applySectionEdit [⟨"SRC", 2 ^ 32, []⟩, ⟨"DST", 2 ^ 64 - 2 ^ 32, []⟩]
        (SectionEdit.GroupRegions "SRC" "DST" "boot")
        = [⟨"DST", 0, [("boot", 0)]⟩]
      ∧ applySectionEdit [⟨"SRC", 2 ^ 32, []⟩, ⟨"DST", 2 ^ 64 - 2 ^ 32, []⟩]
          (SectionEdit.GroupRegions "SRC" "DST" "boot")
          ≠ [⟨"DST", 2 ^ 64, [("boot", 2 ^ 32)]⟩] := by
  constructor
  · decide
  · decide

end PrettySize
